import Mathlib

/-!
# Verification of `gpjax/variational_families.py`

A shallow embedding of the sparse variational Gaussian-process families
(`VariationalGaussian` and `WhitenedVariationalGaussian`) over an abstract
ordered field of scalars (instantiated at `ℚ` for executable checks and at
`ℝ` for the KL-divergence results).

External collaborators of the module are embedded as follows:
* `gram` / `cross_covariance` (the kernels module) build the matrix of
  pairwise kernel evaluations;
* `mean_function` evaluation produces the vector of pointwise prior means;
* `jnp.linalg.cholesky` is an oracle `chol : Matrix → Option Matrix`;
  theorems hypothesise that it returns the (unique) Cholesky factor on the
  positive-definite inputs they consider, and `none` models the numerical
  failure (NaN poisoning) on non-positive-definite inputs;
* `jsp.linalg.solve_triangular` is implemented by forward respectively
  backward substitution, exactly as in scipy;
* the distrax KL divergence between triangular-root multivariate normals is
  modelled from the spec by its standard closed form (`klMvNormalTri`).
-/

namespace GPJax

open Matrix Finset

variable {R : Type} [LinearOrderedField R] {In KPar MPar : Type} {m n p q : ℕ}

/-- Models `kernels.gram(kernel, x, params)`: the matrix of pairwise kernel
evaluations over a batch of inputs. -/
def gram (k : KPar → In → In → R) (x : Fin n → In) (par : KPar) :
    Matrix (Fin n) (Fin n) R :=
  Matrix.of fun i j => k par (x i) (x j)

/-- Models `kernels.cross_covariance(kernel, x, y, params)`: the rectangular
matrix of kernel evaluations between two batches of inputs. -/
def cross_covariance (k : KPar → In → In → R) (x : Fin n → In) (y : Fin p → In)
    (par : KPar) : Matrix (Fin n) (Fin p) R :=
  Matrix.of fun i j => k par (x i) (y j)

/-- Models evaluation of `prior.mean_function(x, params)` as a vector. -/
def mean_vector (mf : MPar → In → R) (x : Fin n → In) (par : MPar) :
    Fin n → R :=
  fun i => mf par (x i)

/-- Forward substitution: row `i` of the solution of `L · x = b` for a lower
triangular `L`, as computed by `jsp.linalg.solve_triangular(L, b, lower=True)`. -/
def fwdSubFun (L : Matrix (Fin m) (Fin m) R) (b : Fin m → R) :
    (i : ℕ) → i < m → R
  | i, hi =>
    (b ⟨i, hi⟩ -
        ∑ k : Fin m,
          if h : (k : ℕ) < i then L ⟨i, hi⟩ k * fwdSubFun L b k (h.trans hi) else 0) /
      L ⟨i, hi⟩ ⟨i, hi⟩
termination_by i _ => i

/-- Backward substitution: row `i` of the solution of `U · x = b` for an upper
triangular `U`, as computed by `jsp.linalg.solve_triangular(U, b, lower=False)`. -/
def bwdSubFun (U : Matrix (Fin m) (Fin m) R) (b : Fin m → R) :
    (i : ℕ) → i < m → R
  | i, hi =>
    (b ⟨i, hi⟩ -
        ∑ k : Fin m,
          if h : i < (k : ℕ) then U ⟨i, hi⟩ k * bwdSubFun U b k k.isLt else 0) /
      U ⟨i, hi⟩ ⟨i, hi⟩
termination_by i _ => m - i
decreasing_by exact Nat.sub_lt_sub_left hi h

/-- Solution of `L *ᵥ x = b` by forward substitution (`L` lower triangular). -/
def solveLowerVec (L : Matrix (Fin m) (Fin m) R) (b : Fin m → R) : Fin m → R :=
  fun i => fwdSubFun L b i.1 i.2

/-- Solution of `L * X = B` by columnwise forward substitution;
models `jsp.linalg.solve_triangular(L, B, lower=True)`. -/
def solveLower (L : Matrix (Fin m) (Fin m) R) (B : Matrix (Fin m) (Fin n) R) :
    Matrix (Fin m) (Fin n) R :=
  Matrix.of fun i j => fwdSubFun L (fun r => B r j) i.1 i.2

/-- Solution of `U * X = B` by columnwise backward substitution;
models `jsp.linalg.solve_triangular(U, B, lower=False)`. -/
def solveUpper (U : Matrix (Fin m) (Fin m) R) (B : Matrix (Fin m) (Fin n) R) :
    Matrix (Fin m) (Fin n) R :=
  Matrix.of fun i j => bwdSubFun U (fun r => B r j) i.1 i.2

/-- `L` is the Cholesky factor of `K`: lower triangular, positive diagonal,
and `L * Lᵀ = K`.  This is the (unique) matrix returned by
`jnp.linalg.cholesky(K)` when `K` is symmetric positive definite. -/
def IsCholeskyFactor (L K : Matrix (Fin m) (Fin m) R) : Prop :=
  (∀ i j : Fin m, i < j → L i j = 0) ∧ (∀ i : Fin m, 0 < L i i) ∧ L * Lᵀ = K

/-- The prior process: a kernel function and a mean function, each reading its
own parameters (models `gps.Prior` as consumed by the variational families). -/
structure Prior (R In KPar MPar : Type) where
  kernel : KPar → In → In → R
  mean_function : MPar → In → R

/-- The parameter dictionary consumed by `prior_kl` and `predict`: the prior's
`kernel` and `mean_function` parameter groups merged with the
`variational_family` sub-dictionary. -/
structure VFParams (R In KPar MPar : Type) (m : ℕ) where
  kernel : KPar
  mean_function : MPar
  inducing_inputs : Fin m → In
  variational_mean : Fin m → R
  variational_root_covariance : Matrix (Fin m) (Fin m) R

/-- The state of a `VariationalGaussian` family instance (the dataclass
fields after `__post_init__` has filled the defaults). -/
structure VariationalGaussian (R In KPar MPar : Type) (m : ℕ) where
  prior : Prior R In KPar MPar
  inducing_inputs : Fin m → In
  variational_mean : Fin m → R
  variational_root_covariance : Matrix (Fin m) (Fin m) R
  diag : Bool
  jitter : R

/-- The whitened family shares the exact state of the unwhitened one; only its
`prior_kl` and `predict` differ. -/
abbrev WhitenedVariationalGaussian (R In KPar MPar : Type) (m : ℕ) :=
  VariationalGaussian R In KPar MPar m

/-- Models `distrax.MultivariateNormalFullCovariance(mean, covariance)`:
the value returned by the predictive closures. -/
structure MvNormalFC (R : Type) (n : ℕ) where
  mean : Fin n → R
  covariance : Matrix (Fin n) (Fin n) R

/-- `VariationalGaussian.predict(params)`, with `jnp.linalg.cholesky` supplied
as the oracle `chol`.  Returns `none` when the factorisation of the jittered
`Kzz` fails, otherwise the closure mapping a test batch to the predictive
distribution, translated line by line from the source. -/
def VariationalGaussian.predict (self : VariationalGaussian R In KPar MPar m)
    (chol : Matrix (Fin m) (Fin m) R → Option (Matrix (Fin m) (Fin m) R))
    (params : VFParams R In KPar MPar m) :
    Option ((n : ℕ) → (Fin n → In) → MvNormalFC R n) :=
  let mu := params.variational_mean
  let sqrt := params.variational_root_covariance
  let z := params.inducing_inputs
  let Kzz := gram self.prior.kernel z params.kernel +
    self.jitter • (1 : Matrix (Fin m) (Fin m) R)
  match chol Kzz with
  | none => none
  | some Lz =>
    let μz := mean_vector self.prior.mean_function z params.mean_function
    some fun n t =>
      let Ktt := gram self.prior.kernel t params.kernel
      let Kzt := cross_covariance self.prior.kernel z t params.kernel
      let μt := mean_vector self.prior.mean_function t params.mean_function
      let Lz_inv_Kzt := solveLower Lz Kzt
      let Kzz_inv_Kzt := solveUpper Lzᵀ Lz_inv_Kzt
      let Ktz_Kzz_inv_sqrt := Kzz_inv_Kztᵀ * sqrt
      let mean := μt + Kzz_inv_Kztᵀ *ᵥ (mu - μz)
      let covariance := Ktt - Lz_inv_Kztᵀ * Lz_inv_Kzt +
        Ktz_Kzz_inv_sqrt * Ktz_Kzz_inv_sqrtᵀ +
        self.jitter • (1 : Matrix (Fin n) (Fin n) R)
      ⟨mean, covariance⟩

/-- `WhitenedVariationalGaussian.predict(params)`, translated line by line
from the source (same Cholesky oracle convention as the unwhitened family). -/
def WhitenedVariationalGaussian.predict
    (self : WhitenedVariationalGaussian R In KPar MPar m)
    (chol : Matrix (Fin m) (Fin m) R → Option (Matrix (Fin m) (Fin m) R))
    (params : VFParams R In KPar MPar m) :
    Option ((n : ℕ) → (Fin n → In) → MvNormalFC R n) :=
  let mu := params.variational_mean
  let sqrt := params.variational_root_covariance
  let z := params.inducing_inputs
  let Kzz := gram self.prior.kernel z params.kernel +
    self.jitter • (1 : Matrix (Fin m) (Fin m) R)
  match chol Kzz with
  | none => none
  | some Lz =>
    some fun n t =>
      let Ktt := gram self.prior.kernel t params.kernel
      let Kzt := cross_covariance self.prior.kernel z t params.kernel
      let μt := mean_vector self.prior.mean_function t params.mean_function
      let Lz_inv_Kzt := solveLower Lz Kzt
      let Ktz_Lz_invT_sqrt := Lz_inv_Kztᵀ * sqrt
      let mean := μt + Lz_inv_Kztᵀ *ᵥ mu
      let covariance := Ktt - Lz_inv_Kztᵀ * Lz_inv_Kzt +
        Ktz_Lz_invT_sqrt * Ktz_Lz_invT_sqrtᵀ +
        self.jitter • (1 : Matrix (Fin n) (Fin n) R)
      ⟨mean, covariance⟩

/-- Squared Frobenius norm of a matrix. -/
def frobSq (M : Matrix (Fin n) (Fin p) R) : R := ∑ i, ∑ j, M i j ^ 2

/-- Squared Euclidean norm of a vector. -/
def sqNorm (v : Fin n → R) : R := ∑ i, v i ^ 2

/-- Positive semi-definiteness of the joint prior covariance
`[[K, Kzt], [Kztᵀ, Ktt]]` over inducing and test points, phrased as
nonnegativity of its quadratic form on block vectors. -/
def jointPSD (K : Matrix (Fin m) (Fin m) R) (Kzt : Matrix (Fin m) (Fin n) R)
    (Ktt : Matrix (Fin n) (Fin n) R) : Prop :=
  ∀ (x : Fin m → R) (y : Fin n → R),
    0 ≤ x ⬝ᵥ (K *ᵥ x) + x ⬝ᵥ (Kzt *ᵥ y) + y ⬝ᵥ (Kztᵀ *ᵥ x) + y ⬝ᵥ (Ktt *ᵥ y)

/-- The unconstrained-space transforms registered with the parameter-schema
registry by `add_parameter`: `Identity`, `FillDiagonal = Chain([Diagonal,
Softplus])` and `FillTriangular = Chain([tfb.FillTriangular()])`. -/
inductive Transform where
  | Identity : Transform
  | FillDiagonal : Transform
  | FillTriangular : Transform
deriving DecidableEq

/-- Construction of a `VariationalGaussian` (shared by the whitened family):
`__post_init__` fills the defaults (zero mean, identity root) and performs the
`add_parameter` side effects, returned here as the list of
`(name, transform)` registrations in call order. -/
def mkVariationalGaussian (prior : Prior R In KPar MPar)
    (inducing_inputs : Fin m → In) (variational_mean : Option (Fin m → R))
    (variational_root_covariance : Option (Matrix (Fin m) (Fin m) R))
    (dg : Bool) (jitter : R) :
    VariationalGaussian R In KPar MPar m × List (String × Transform) :=
  (⟨prior, inducing_inputs, variational_mean.getD (fun _ => 0),
      variational_root_covariance.getD 1, dg, jitter⟩,
    ("inducing_inputs", Transform.Identity) ::
      ((match variational_mean with
        | none => [("variational_mean", Transform.Identity)]
        | some _ => []) ++
        (match variational_root_covariance with
          | none =>
            if dg then [("variational_root_covariance", Transform.FillDiagonal)]
            else [("variational_root_covariance", Transform.FillTriangular)]
          | some _ => [])))

/-- Modelled from the spec: the KL divergence between two multivariate normals
given by their means and lower-triangular scale factors, as computed by the
external distrax distribution primitives (`MultivariateNormalTri
.kl_divergence`), in the standard closed form
`½(‖L2⁻¹L1‖_F² + ‖L2⁻¹(μ1-μ2)‖² - m) + Σᵢ log (L2)ᵢᵢ - Σᵢ log (L1)ᵢᵢ`. -/
noncomputable def klMvNormalTri (μ1 : Fin m → ℝ) (L1 : Matrix (Fin m) (Fin m) ℝ)
    (μ2 : Fin m → ℝ) (L2 : Matrix (Fin m) (Fin m) ℝ) : ℝ :=
  (frobSq (solveLower L2 L1) + sqNorm (solveLowerVec L2 (μ1 - μ2)) - m) / 2 +
    ((∑ i, Real.log (L2 i i)) - ∑ i, Real.log (L1 i i))

/-- The textbook closed form of the KL divergence between multivariate normals
given by their means and full covariance matrices; stated from the spec's
words (`KL[N(μ, S) ‖ N(0, I)]`) as the comparison point for `prior_kl`. -/
noncomputable def klMvNormalFull (μ1 : Fin m → ℝ) (S1 : Matrix (Fin m) (Fin m) ℝ)
    (μ2 : Fin m → ℝ) (S2 : Matrix (Fin m) (Fin m) ℝ) : ℝ :=
  ((S2⁻¹ * S1).trace + (μ2 - μ1) ⬝ᵥ (S2⁻¹ *ᵥ (μ2 - μ1)) - m +
      Real.log (S2.det / S1.det)) / 2

/-- `VariationalGaussian.prior_kl(params)`:
`KL[N(μ, sqrt·sqrtᵀ) ‖ N(μz, Lz·Lzᵀ)]` with `Lz` the Cholesky factor of the
jittered `Kzz`, translated line by line from the source (the Cholesky oracle
convention is as in `predict`). -/
noncomputable def VariationalGaussian.prior_kl
    (self : VariationalGaussian ℝ In KPar MPar m)
    (chol : Matrix (Fin m) (Fin m) ℝ → Option (Matrix (Fin m) (Fin m) ℝ))
    (params : VFParams ℝ In KPar MPar m) : Option ℝ :=
  let mu := params.variational_mean
  let sqrt := params.variational_root_covariance
  let z := params.inducing_inputs
  let μz := mean_vector self.prior.mean_function z params.mean_function
  let Kzz := gram self.prior.kernel z params.kernel +
    self.jitter • (1 : Matrix (Fin m) (Fin m) ℝ)
  match chol Kzz with
  | none => none
  | some Lz => some (klMvNormalTri mu sqrt μz Lz)

/-- `WhitenedVariationalGaussian.prior_kl(params)`:
`KL[N(μ, sqrt·sqrtᵀ) ‖ N(0, I)]`, translated line by line from the source —
it reads only the variational mean and root covariance and performs no kernel
evaluation and no factorisation. -/
noncomputable def WhitenedVariationalGaussian.prior_kl
    (self : WhitenedVariationalGaussian ℝ In KPar MPar m)
    (params : VFParams ℝ In KPar MPar m) : ℝ :=
  let mu := params.variational_mean
  let sqrt := params.variational_root_covariance
  klMvNormalTri mu sqrt (fun _ => 0) 1

/-- A concrete prior over rational scalars (zero kernel, zero mean function)
used to evaluate the development on explicit inputs. -/
def testPriorQ : Prior ℚ ℚ Unit Unit := ⟨fun _ _ _ => 0, fun _ _ => 0⟩

/-- A concrete family instance over rational scalars with one inducing point
and unit jitter. -/
def testFamQ : VariationalGaussian ℚ ℚ Unit Unit 1 :=
  ⟨testPriorQ, fun _ => 0, fun _ => 0, 1, false, 1⟩

/-- A concrete parameter dictionary over rational scalars. -/
def testParamsQ : VFParams ℚ ℚ Unit Unit 1 := ⟨(), (), fun _ => 0, fun _ => 0, 1⟩

/-- A concrete Cholesky oracle over rational scalars returning the identity
factor (correct for the identity input matrix). -/
def testCholQ : Matrix (Fin 1) (Fin 1) ℚ → Option (Matrix (Fin 1) (Fin 1) ℚ) :=
  fun _ => some 1

/-- A concrete prior over real scalars (zero kernel, zero mean function). -/
def testPriorR : Prior ℝ ℝ Unit Unit := ⟨fun _ _ _ => 0, fun _ _ => 0⟩

/-- A concrete family instance over real scalars with one inducing point and
unit jitter. -/
def testFamR : VariationalGaussian ℝ ℝ Unit Unit 1 :=
  ⟨testPriorR, fun _ => 0, fun _ => 0, 1, false, 1⟩

/-- A concrete parameter dictionary over real scalars. -/
def testParamsR : VFParams ℝ ℝ Unit Unit 1 := ⟨(), (), fun _ => 0, fun _ => 0, 1⟩

/-- A concrete Cholesky oracle over real scalars returning the identity
factor (correct for the identity input matrix). -/
def testCholR : Matrix (Fin 1) (Fin 1) ℝ → Option (Matrix (Fin 1) (Fin 1) ℝ) :=
  fun _ => some 1

/-- A concrete Cholesky oracle modelling a failed factorisation. -/
def testCholFail : Matrix (Fin 1) (Fin 1) ℝ → Option (Matrix (Fin 1) (Fin 1) ℝ) :=
  fun _ => none

/-! ## Correctness of the triangular solvers -/

/-- One-step unfolding of `solveLowerVec`. -/
theorem solveLowerVec_eq (L : Matrix (Fin m) (Fin m) R) (b : Fin m → R) (i : Fin m) :
    solveLowerVec L b i =
      (b i - ∑ k : Fin m,
          if (k : ℕ) < (i : ℕ) then L i k * solveLowerVec L b k else 0) / L i i := by
  show fwdSubFun L b i.1 i.2 = _
  rw [fwdSubFun]
  congr 2

/-- One-step unfolding of `solveUpperVec`. -/
theorem solveUpperVec_eq (U : Matrix (Fin m) (Fin m) R) (b : Fin m → R) (i : Fin m) :
    (fun j : Fin m => bwdSubFun U b j.1 j.2) i =
      (b i - ∑ k : Fin m,
          if (i : ℕ) < (k : ℕ) then U i k * bwdSubFun U b k.1 k.2 else 0) / U i i := by
  show bwdSubFun U b i.1 i.2 = _
  rw [bwdSubFun]
  congr 2

/-- Forward substitution solves a lower triangular system with nonzero
diagonal. -/
theorem mulVec_solveLowerVec (L : Matrix (Fin m) (Fin m) R) (b : Fin m → R)
    (hL : ∀ i j : Fin m, i < j → L i j = 0) (hd : ∀ i : Fin m, L i i ≠ 0) :
    L *ᵥ solveLowerVec L b = b := by
  funext i
  set X := solveLowerVec L b with hX
  have hsplit : ∀ k : Fin m, L i k * X k =
      (if (k : ℕ) < (i : ℕ) then L i k * X k else 0) +
        (if k = i then L i k * X k else 0) := by
    intro k
    rcases lt_trichotomy ((k : ℕ)) ((i : ℕ)) with h | h | h
    · have hne : ¬ k = i := fun he => by subst he; omega
      simp [h, hne]
    · have he : k = i := Fin.ext h
      subst he
      simp
    · have h1 : ¬ (k : ℕ) < (i : ℕ) := by omega
      have hne : ¬ k = i := fun he => by subst he; omega
      have h0 : L i k = 0 := hL i k (Fin.lt_def.mpr h)
      simp [h1, hne, h0]
  have hsum : (L *ᵥ X) i =
      (∑ k : Fin m, if (k : ℕ) < (i : ℕ) then L i k * X k else 0) + L i i * X i := by
    simp only [Matrix.mulVec, Matrix.dotProduct]
    rw [Finset.sum_congr rfl fun k _ => hsplit k, Finset.sum_add_distrib]
    congr 1
    rw [Finset.sum_ite_eq' Finset.univ i fun k => L i k * X k]
    simp
  have hXi : L i i * X i =
      b i - ∑ k : Fin m, if (k : ℕ) < (i : ℕ) then L i k * X k else 0 := by
    rw [hX, solveLowerVec_eq, ← hX, mul_comm, div_mul_cancel₀ _ (hd i)]
  rw [hsum, hXi]
  ring

/-- Backward substitution solves an upper triangular system with nonzero
diagonal. -/
theorem mulVec_solveUpperVec (U : Matrix (Fin m) (Fin m) R) (b : Fin m → R)
    (hU : ∀ i j : Fin m, j < i → U i j = 0) (hd : ∀ i : Fin m, U i i ≠ 0) :
    U *ᵥ (fun j : Fin m => bwdSubFun U b j.1 j.2) = b := by
  funext i
  set X : Fin m → R := fun j => bwdSubFun U b j.1 j.2 with hX
  have hsplit : ∀ k : Fin m, U i k * X k =
      (if (i : ℕ) < (k : ℕ) then U i k * X k else 0) +
        (if k = i then U i k * X k else 0) := by
    intro k
    rcases lt_trichotomy ((i : ℕ)) ((k : ℕ)) with h | h | h
    · have hne : ¬ k = i := fun he => by subst he; omega
      simp [h, hne]
    · have he : k = i := Fin.ext h.symm
      subst he
      simp
    · have h1 : ¬ (i : ℕ) < (k : ℕ) := by omega
      have hne : ¬ k = i := fun he => by subst he; omega
      have h0 : U i k = 0 := hU i k (Fin.lt_def.mpr h)
      simp [h1, hne, h0]
  have hsum : (U *ᵥ X) i =
      (∑ k : Fin m, if (i : ℕ) < (k : ℕ) then U i k * X k else 0) + U i i * X i := by
    simp only [Matrix.mulVec, Matrix.dotProduct]
    rw [Finset.sum_congr rfl fun k _ => hsplit k, Finset.sum_add_distrib]
    congr 1
    rw [Finset.sum_ite_eq' Finset.univ i fun k => U i k * X k]
    simp
  have hXi : U i i * X i =
      b i - ∑ k : Fin m, if (i : ℕ) < (k : ℕ) then U i k * X k else 0 := by
    rw [hX]
    rw [show (fun j : Fin m => bwdSubFun U b j.1 j.2) i = bwdSubFun U b i.1 i.2 from rfl]
    rw [show bwdSubFun U b i.1 i.2 = (fun j : Fin m => bwdSubFun U b j.1 j.2) i from rfl,
      solveUpperVec_eq U b i]
    rw [mul_comm, div_mul_cancel₀ _ (hd i)]
  rw [hsum, hXi]
  ring

/-- Matrix-level correctness of `solveLower`. -/
theorem mul_solveLower (L : Matrix (Fin m) (Fin m) R) (B : Matrix (Fin m) (Fin n) R)
    (hL : ∀ i j : Fin m, i < j → L i j = 0) (hd : ∀ i : Fin m, L i i ≠ 0) :
    L * solveLower L B = B := by
  ext i j
  have h := congrFun (mulVec_solveLowerVec L (fun r => B r j) hL hd) i
  simpa [Matrix.mul_apply, Matrix.mulVec, Matrix.dotProduct, solveLower,
    solveLowerVec] using h

/-- Matrix-level correctness of `solveUpper`. -/
theorem mul_solveUpper (U : Matrix (Fin m) (Fin m) R) (B : Matrix (Fin m) (Fin n) R)
    (hU : ∀ i j : Fin m, j < i → U i j = 0) (hd : ∀ i : Fin m, U i i ≠ 0) :
    U * solveUpper U B = B := by
  ext i j
  have h := congrFun (mulVec_solveUpperVec U (fun r => B r j) hU hd) i
  simpa [Matrix.mul_apply, Matrix.mulVec, Matrix.dotProduct, solveUpper] using h

/-- A lower triangular matrix with nonzero diagonal has unit determinant
(i.e. is invertible). -/
theorem isUnit_det_of_lowerTri (L : Matrix (Fin m) (Fin m) R)
    (hL : ∀ i j : Fin m, i < j → L i j = 0) (hd : ∀ i : Fin m, L i i ≠ 0) :
    IsUnit L.det := by
  have hbt : L.BlockTriangular OrderDual.toDual := fun i j hij => hL i j hij
  rw [Matrix.det_of_lowerTriangular L hbt]
  exact (Finset.prod_ne_zero_iff.mpr fun i _ => hd i).isUnit

/-- Left cancellation for matrix products with an invertible left factor. -/
theorem mul_left_cancel_of_isUnit_det {L : Matrix (Fin m) (Fin m) R}
    (h : IsUnit L.det) {X Y : Matrix (Fin m) (Fin n) R}
    (hXY : L * X = L * Y) : X = Y := by
  have h2 := congrArg (fun M => L⁻¹ * M) hXY
  simpa [← Matrix.mul_assoc, Matrix.nonsing_inv_mul L h] using h2

/-- Left cancellation for matrix-vector products with an invertible matrix. -/
theorem mulVec_left_cancel_of_isUnit_det {L : Matrix (Fin m) (Fin m) R}
    (h : IsUnit L.det) {x y : Fin m → R}
    (hxy : L *ᵥ x = L *ᵥ y) : x = y := by
  have h2 := congrArg (fun v => L⁻¹ *ᵥ v) hxy
  simpa [Matrix.mulVec_mulVec, Matrix.nonsing_inv_mul L h] using h2

/-- `solveLower` returns the unique solution of the system. -/
theorem solveLower_eq_of (L : Matrix (Fin m) (Fin m) R)
    (hL : ∀ i j : Fin m, i < j → L i j = 0) (hd : ∀ i : Fin m, L i i ≠ 0)
    {A B : Matrix (Fin m) (Fin n) R} (hA : L * A = B) : solveLower L B = A :=
  mul_left_cancel_of_isUnit_det (isUnit_det_of_lowerTri L hL hd)
    (by rw [mul_solveLower L B hL hd, hA])

/-- `solveUpper` returns the unique solution of the system. -/
theorem solveUpper_eq_of (U : Matrix (Fin m) (Fin m) R)
    (hU : ∀ i j : Fin m, j < i → U i j = 0) (hd : ∀ i : Fin m, U i i ≠ 0)
    {A B : Matrix (Fin m) (Fin n) R} (hA : U * A = B) : solveUpper U B = A := by
  refine mul_left_cancel_of_isUnit_det ?_ (by rw [mul_solveUpper U B hU hd, hA])
  have h2 : IsUnit Uᵀ.det := isUnit_det_of_lowerTri Uᵀ (fun i j hij => hU j i hij) hd
  rwa [Matrix.det_transpose] at h2

/-- `solveLowerVec` returns the unique solution of the system. -/
theorem solveLowerVec_eq_of (L : Matrix (Fin m) (Fin m) R)
    (hL : ∀ i j : Fin m, i < j → L i j = 0) (hd : ∀ i : Fin m, L i i ≠ 0)
    {x b : Fin m → R} (hx : L *ᵥ x = b) : solveLowerVec L b = x :=
  mulVec_left_cancel_of_isUnit_det (isUnit_det_of_lowerTri L hL hd)
    (by rw [mulVec_solveLowerVec L b hL hd, hx])

/-! ## Claims about the predictive formulas -/

/-- Claim C2: for a positive-definite jittered `Kzz` (witnessed by the Cholesky
oracle returning its factor `Lz`), the unwhitened predictive distribution at a
test batch has mean `μt + Bᵀ(μ - μz)` and covariance
`Ktt - AᵀA + CCᵀ + jitter·I` where `Lz·A = Kzt`, `Lzᵀ·B = A` and
`C = Bᵀ·sqrt`. -/
theorem claim2_unwhitened_predict_formula
    (self : VariationalGaussian R In KPar MPar m)
    (chol : Matrix (Fin m) (Fin m) R → Option (Matrix (Fin m) (Fin m) R))
    (params : VFParams R In KPar MPar m) (Lz : Matrix (Fin m) (Fin m) R)
    (hchol : chol (gram self.prior.kernel params.inducing_inputs params.kernel +
        self.jitter • 1) = some Lz)
    (hLz : IsCholeskyFactor Lz
      (gram self.prior.kernel params.inducing_inputs params.kernel +
        self.jitter • 1))
    (n : ℕ) (t : Fin n → In) (A B : Matrix (Fin m) (Fin n) R)
    (hA : Lz * A =
      cross_covariance self.prior.kernel params.inducing_inputs t params.kernel)
    (hB : Lzᵀ * B = A) :
    Option.map (fun f => f n t) (self.predict chol params) =
      some ⟨mean_vector self.prior.mean_function t params.mean_function +
              Bᵀ *ᵥ (params.variational_mean -
                mean_vector self.prior.mean_function params.inducing_inputs
                  params.mean_function),
            gram self.prior.kernel t params.kernel - Aᵀ * A +
              (Bᵀ * params.variational_root_covariance) *
                (Bᵀ * params.variational_root_covariance)ᵀ +
              self.jitter • 1⟩ := by
  obtain ⟨htri, hpos, hfact⟩ := hLz
  have hd : ∀ i : Fin m, Lz i i ≠ 0 := fun i => (hpos i).ne'
  have hsolveA : solveLower Lz
      (cross_covariance self.prior.kernel params.inducing_inputs t params.kernel) = A :=
    solveLower_eq_of Lz htri hd hA
  have hsolveB : solveUpper Lzᵀ A = B :=
    solveUpper_eq_of Lzᵀ (fun i j hij => htri j i hij) hd hB
  simp only [VariationalGaussian.predict, hchol, Option.map_some']
  rw [hsolveA, hsolveB]

/-- Claim C3: for a positive-definite jittered `Kzz`, the whitened predictive
distribution at a test batch has mean `μt + Aᵀμ` (no subtraction of `μz`) and
covariance `Ktt - AᵀA + CCᵀ + jitter·I` where `A = Lz⁻¹Kzt` and
`C = Aᵀ·sqrt`. -/
theorem claim3_whitened_predict_formula
    (self : WhitenedVariationalGaussian R In KPar MPar m)
    (chol : Matrix (Fin m) (Fin m) R → Option (Matrix (Fin m) (Fin m) R))
    (params : VFParams R In KPar MPar m) (Lz : Matrix (Fin m) (Fin m) R)
    (hchol : chol (gram self.prior.kernel params.inducing_inputs params.kernel +
        self.jitter • 1) = some Lz)
    (hLz : IsCholeskyFactor Lz
      (gram self.prior.kernel params.inducing_inputs params.kernel +
        self.jitter • 1))
    (n : ℕ) (t : Fin n → In) (A : Matrix (Fin m) (Fin n) R)
    (hA : Lz * A =
      cross_covariance self.prior.kernel params.inducing_inputs t params.kernel) :
    Option.map (fun f => f n t)
        (WhitenedVariationalGaussian.predict self chol params) =
      some ⟨mean_vector self.prior.mean_function t params.mean_function +
              Aᵀ *ᵥ params.variational_mean,
            gram self.prior.kernel t params.kernel - Aᵀ * A +
              (Aᵀ * params.variational_root_covariance) *
                (Aᵀ * params.variational_root_covariance)ᵀ +
              self.jitter • 1⟩ := by
  obtain ⟨htri, hpos, hfact⟩ := hLz
  have hd : ∀ i : Fin m, Lz i i ≠ 0 := fun i => (hpos i).ne'
  have hsolveA : solveLower Lz
      (cross_covariance self.prior.kernel params.inducing_inputs t params.kernel) = A :=
    solveLower_eq_of Lz htri hd hA
  simp only [WhitenedVariationalGaussian.predict, hchol, Option.map_some']
  rw [hsolveA]

/-- Claim C1: when the variational parameters of a whitened family are related
to those of an unwhitened family by the whitening transform
(`Lz *ᵥ μ_white = μ - μz` and `Lz * sqrt_white = sqrt`, with `Lz` the Cholesky
factor of the jittered `Kzz`), the two `predict` functions return the same
predictive mean and covariance at every test batch. -/
theorem claim1_whitening_equivalence
    (self : VariationalGaussian R In KPar MPar m)
    (selfW : WhitenedVariationalGaussian R In KPar MPar m)
    (chol : Matrix (Fin m) (Fin m) R → Option (Matrix (Fin m) (Fin m) R))
    (p pW : VFParams R In KPar MPar m) (Lz : Matrix (Fin m) (Fin m) R)
    (hprior : selfW.prior = self.prior) (hjit : selfW.jitter = self.jitter)
    (hker : pW.kernel = p.kernel) (hmf : pW.mean_function = p.mean_function)
    (hz : pW.inducing_inputs = p.inducing_inputs)
    (hchol : chol (gram self.prior.kernel p.inducing_inputs p.kernel +
        self.jitter • 1) = some Lz)
    (hLz : IsCholeskyFactor Lz
      (gram self.prior.kernel p.inducing_inputs p.kernel + self.jitter • 1))
    (hmean : Lz *ᵥ pW.variational_mean =
      p.variational_mean -
        mean_vector self.prior.mean_function p.inducing_inputs p.mean_function)
    (hsqrt : Lz * pW.variational_root_covariance = p.variational_root_covariance) :
    ∀ (n : ℕ) (t : Fin n → In),
      Option.map (fun f => f n t)
          (WhitenedVariationalGaussian.predict selfW chol pW) =
        Option.map (fun f => f n t) (self.predict chol p) := by
  intro n t
  obtain ⟨htri, hpos, hfact⟩ := hLz
  have hd : ∀ i : Fin m, Lz i i ≠ 0 := fun i => (hpos i).ne'
  have hLA : Lz * solveLower Lz
      (cross_covariance self.prior.kernel p.inducing_inputs t p.kernel) =
      cross_covariance self.prior.kernel p.inducing_inputs t p.kernel :=
    mul_solveLower Lz _ htri hd
  have hLB : Lzᵀ * solveUpper Lzᵀ (solveLower Lz
      (cross_covariance self.prior.kernel p.inducing_inputs t p.kernel)) =
      solveLower Lz
        (cross_covariance self.prior.kernel p.inducing_inputs t p.kernel) :=
    mul_solveUpper Lzᵀ _ (fun i j hij => htri j i hij) hd
  have hBt : (solveUpper Lzᵀ (solveLower Lz
      (cross_covariance self.prior.kernel p.inducing_inputs t p.kernel)))ᵀ * Lz =
      (solveLower Lz
        (cross_covariance self.prior.kernel p.inducing_inputs t p.kernel))ᵀ := by
    have h2 := congrArg Matrix.transpose hLB
    rwa [Matrix.transpose_mul, Matrix.transpose_transpose] at h2
  have hmean2 : (solveLower Lz
      (cross_covariance self.prior.kernel p.inducing_inputs t p.kernel))ᵀ *ᵥ
        pW.variational_mean =
      (solveUpper Lzᵀ (solveLower Lz
        (cross_covariance self.prior.kernel p.inducing_inputs t p.kernel)))ᵀ *ᵥ
        (p.variational_mean -
          mean_vector self.prior.mean_function p.inducing_inputs p.mean_function) := by
    rw [← hmean, ← hBt, ← Matrix.mulVec_mulVec]
  have hCov : (solveLower Lz
      (cross_covariance self.prior.kernel p.inducing_inputs t p.kernel))ᵀ *
        pW.variational_root_covariance =
      (solveUpper Lzᵀ (solveLower Lz
        (cross_covariance self.prior.kernel p.inducing_inputs t p.kernel)))ᵀ *
        p.variational_root_covariance := by
    rw [← hsqrt, ← hBt, Matrix.mul_assoc]
  simp only [WhitenedVariationalGaussian.predict, VariationalGaussian.predict,
    hprior, hjit, hker, hmf, hz, hchol, Option.map_some']
  rw [hmean2, hCov]

/-- The Schur-complement quadratic form `yᵀ(Ktt - AᵀA)y` is nonnegative when
the joint prior covariance is positive semi-definite and `A` arises from the
triangular solves against the Cholesky factor. -/
theorem schur_quadform_nonneg {K Lz : Matrix (Fin m) (Fin m) R}
    {Kzt A B : Matrix (Fin m) (Fin n) R} {Ktt : Matrix (Fin n) (Fin n) R}
    (hfact : Lz * Lzᵀ = K) (hLA : Lz * A = Kzt) (hLB : Lzᵀ * B = A)
    (hPSD : jointPSD K Kzt Ktt) (y : Fin n → R) :
    0 ≤ y ⬝ᵥ ((Ktt - Aᵀ * A) *ᵥ y) := by
  have hKB : K * B = Kzt := by rw [← hfact, Matrix.mul_assoc, hLB, hLA]
  have hBtLz : Bᵀ * Lz = Aᵀ := by
    have h2 := congrArg Matrix.transpose hLB
    rwa [Matrix.transpose_mul, Matrix.transpose_transpose] at h2
  have hBtKzt : Bᵀ * Kzt = Aᵀ * A := by rw [← hLA, ← Matrix.mul_assoc, hBtLz]
  have hKztB : Kztᵀ * B = Aᵀ * A := by
    have h2 := congrArg Matrix.transpose hBtKzt
    rw [Matrix.transpose_mul, Matrix.transpose_transpose, Matrix.transpose_mul,
      Matrix.transpose_transpose] at h2
    exact h2
  have h := hPSD (-(B *ᵥ y)) y
  simp only [Matrix.mulVec_neg, Matrix.dotProduct_neg, Matrix.neg_dotProduct,
    neg_neg, Matrix.mulVec_mulVec] at h
  rw [hKB, hKztB] at h
  rw [Matrix.sub_mulVec, Matrix.dotProduct_sub]
  linarith

/-- Symmetry and diagonal nonnegativity of a predictive covariance assembled
as `Ktt - AᵀA + CCᵀ + jitter·I`. -/
theorem cov_assembly_symm_diag (Ktt : Matrix (Fin n) (Fin n) R)
    (A : Matrix (Fin m) (Fin n) R) (C : Matrix (Fin n) (Fin m) R) (j : R)
    (hKtt : Kttᵀ = Ktt) (hj : 0 ≤ j)
    (hdiag : ∀ y : Fin n → R, 0 ≤ y ⬝ᵥ ((Ktt - Aᵀ * A) *ᵥ y)) :
    (Ktt - Aᵀ * A + C * Cᵀ + j • (1 : Matrix (Fin n) (Fin n) R))ᵀ =
        Ktt - Aᵀ * A + C * Cᵀ + j • (1 : Matrix (Fin n) (Fin n) R) ∧
      ∀ i : Fin n,
        0 ≤ (Ktt - Aᵀ * A + C * Cᵀ + j • (1 : Matrix (Fin n) (Fin n) R)) i i := by
  constructor
  · rw [Matrix.transpose_add, Matrix.transpose_add, Matrix.transpose_sub,
      Matrix.transpose_mul, Matrix.transpose_mul, Matrix.transpose_transpose,
      Matrix.transpose_transpose, Matrix.transpose_smul, Matrix.transpose_one, hKtt]
  · intro i
    have h1 : 0 ≤ (Ktt - Aᵀ * A) i i := by
      have h2 := hdiag (Pi.single i 1)
      simpa only [Matrix.mulVec_single, Matrix.single_dotProduct, one_mul,
        mul_one] using h2
    have h2 : 0 ≤ (C * Cᵀ) i i := by
      rw [Matrix.mul_apply]
      exact Finset.sum_nonneg fun k _ => by
        rw [Matrix.transpose_apply]; exact mul_self_nonneg _
    have h3 : (Ktt - Aᵀ * A + C * Cᵀ + j • (1 : Matrix (Fin n) (Fin n) R)) i i =
        (Ktt - Aᵀ * A) i i + (C * Cᵀ) i i + j := by
      simp [Matrix.add_apply, Matrix.smul_apply, Matrix.one_apply]
    rw [h3]
    linarith

/-- Claim C9: on a test batch where `Ktt` is symmetric, the covariance returned
by either family's predictive closure is symmetric; and when the joint prior
covariance over inducing and test points is PSD and the jitter is nonnegative,
all its diagonal entries are nonnegative. -/
theorem claim9_predict_covariance_symmetric_nonneg_diag
    (self : VariationalGaussian R In KPar MPar m)
    (chol : Matrix (Fin m) (Fin m) R → Option (Matrix (Fin m) (Fin m) R))
    (params : VFParams R In KPar MPar m) (Lz : Matrix (Fin m) (Fin m) R)
    (hchol : chol (gram self.prior.kernel params.inducing_inputs params.kernel +
        self.jitter • 1) = some Lz)
    (hLz : IsCholeskyFactor Lz
      (gram self.prior.kernel params.inducing_inputs params.kernel +
        self.jitter • 1))
    (hj : 0 ≤ self.jitter) (n : ℕ) (t : Fin n → In)
    (hKtt : (gram self.prior.kernel t params.kernel)ᵀ =
      gram self.prior.kernel t params.kernel)
    (hPSD : jointPSD
      (gram self.prior.kernel params.inducing_inputs params.kernel +
        self.jitter • 1)
      (cross_covariance self.prior.kernel params.inducing_inputs t params.kernel)
      (gram self.prior.kernel t params.kernel))
    (f : (k : ℕ) → (Fin k → In) → MvNormalFC R k)
    (hf : self.predict chol params = some f ∨
      WhitenedVariationalGaussian.predict self chol params = some f) :
    ((f n t).covariance)ᵀ = (f n t).covariance ∧
      ∀ i : Fin n, 0 ≤ (f n t).covariance i i := by
  obtain ⟨htri, hpos, hfact⟩ := hLz
  have hd : ∀ i : Fin m, Lz i i ≠ 0 := fun i => (hpos i).ne'
  have hLA : Lz * solveLower Lz
      (cross_covariance self.prior.kernel params.inducing_inputs t params.kernel) =
      cross_covariance self.prior.kernel params.inducing_inputs t params.kernel :=
    mul_solveLower Lz _ htri hd
  have hLB : Lzᵀ * solveUpper Lzᵀ (solveLower Lz
      (cross_covariance self.prior.kernel params.inducing_inputs t params.kernel)) =
      solveLower Lz
        (cross_covariance self.prior.kernel params.inducing_inputs t params.kernel) :=
    mul_solveUpper Lzᵀ _ (fun i j hij => htri j i hij) hd
  have hquad := fun y => schur_quadform_nonneg hfact hLA hLB hPSD y
  rcases hf with h | h
  · simp only [VariationalGaussian.predict, hchol, Option.some.injEq] at h
    subst h
    exact cov_assembly_symm_diag _ _ _ _ hKtt hj hquad
  · simp only [WhitenedVariationalGaussian.predict, hchol, Option.some.injEq] at h
    subst h
    exact cov_assembly_symm_diag _ _ _ _ hKtt hj hquad

/-- Claim C5: when the Cholesky factorisation of the jittered `Kzz` fails, the
unwhitened `prior_kl` and both families' `predict` propagate the failure: no
ordinary numeric result is returned, and no retry with a larger jitter
happens (the oracle is consulted exactly once, on the jittered matrix). -/
theorem claim5_cholesky_failure_propagates
    (self : VariationalGaussian ℝ In KPar MPar m)
    (chol : Matrix (Fin m) (Fin m) ℝ → Option (Matrix (Fin m) (Fin m) ℝ))
    (params : VFParams ℝ In KPar MPar m)
    (hfail : chol (gram self.prior.kernel params.inducing_inputs params.kernel +
      self.jitter • 1) = none) :
    self.prior_kl chol params = none ∧
      self.predict chol params = none ∧
      WhitenedVariationalGaussian.predict self chol params = none := by
  refine ⟨?_, ?_, ?_⟩ <;>
    simp only [VariationalGaussian.prior_kl, VariationalGaussian.predict,
      WhitenedVariationalGaussian.predict, hfail]

/-- Claim C10: `prior_kl` and `predict` of either family read the variational
mean, root covariance and inducing inputs exclusively from the parameter
dictionary: two instances that agree on prior, jitter, `diag` and inducing
count but have arbitrary stored arrays produce identical outputs. -/
theorem claim10_reads_variational_state_from_params_only
    (prior : Prior ℝ In KPar MPar) (j : ℝ) (dg : Bool)
    (z1 z2 : Fin m → In) (vm1 vm2 : Fin m → ℝ)
    (vr1 vr2 : Matrix (Fin m) (Fin m) ℝ)
    (chol : Matrix (Fin m) (Fin m) ℝ → Option (Matrix (Fin m) (Fin m) ℝ))
    (params : VFParams ℝ In KPar MPar m) :
    VariationalGaussian.prior_kl ⟨prior, z1, vm1, vr1, dg, j⟩ chol params =
        VariationalGaussian.prior_kl ⟨prior, z2, vm2, vr2, dg, j⟩ chol params ∧
      VariationalGaussian.predict ⟨prior, z1, vm1, vr1, dg, j⟩ chol params =
        VariationalGaussian.predict ⟨prior, z2, vm2, vr2, dg, j⟩ chol params ∧
      WhitenedVariationalGaussian.prior_kl ⟨prior, z1, vm1, vr1, dg, j⟩ params =
        WhitenedVariationalGaussian.prior_kl ⟨prior, z2, vm2, vr2, dg, j⟩ params ∧
      WhitenedVariationalGaussian.predict ⟨prior, z1, vm1, vr1, dg, j⟩ chol params =
        WhitenedVariationalGaussian.predict ⟨prior, z2, vm2, vr2, dg, j⟩ chol params :=
  ⟨rfl, rfl, rfl, rfl⟩

/-- Claim C4 (amended): construction always registers the identity transform
for the inducing inputs, but registers the identity transform for the
variational mean, and the root-covariance transform (softplus-diagonal when
`diag` is true, fill-triangular when false), only when the corresponding
initial value is not supplied. -/
theorem claim4_registration_on_construction
    (prior : Prior R In KPar MPar) (z : Fin m → In)
    (vmean : Option (Fin m → R)) (vroot : Option (Matrix (Fin m) (Fin m) R))
    (dg : Bool) (j : R) :
    ("inducing_inputs", Transform.Identity) ∈
        (mkVariationalGaussian prior z vmean vroot dg j).2 ∧
      (("variational_mean", Transform.Identity) ∈
          (mkVariationalGaussian prior z vmean vroot dg j).2 ↔ vmean = none) ∧
      (("variational_root_covariance", Transform.FillDiagonal) ∈
          (mkVariationalGaussian prior z vmean vroot dg j).2 ↔
        vroot = none ∧ dg = true) ∧
      (("variational_root_covariance", Transform.FillTriangular) ∈
          (mkVariationalGaussian prior z vmean vroot dg j).2 ↔
        vroot = none ∧ dg = false) := by
  rcases vmean with _ | v <;> rcases vroot with _ | r <;> rcases dg <;>
    simp [mkVariationalGaussian]

/-- Claim C4 counterexample: a construction that explicitly supplies the
variational mean and root covariance registers only the inducing-input
transform — in particular no identity transform for the variational mean —
refuting the claim that registration happens for every construction. -/
theorem claim4_counterexample :
    (mkVariationalGaussian (⟨fun _ _ _ => 0, fun _ _ => 0⟩ : Prior ℚ ℚ Unit Unit)
          ((fun _ => 0) : Fin 1 → ℚ) (some fun _ => 0) (some 1) false 1).2 =
        [("inducing_inputs", Transform.Identity)] ∧
      ("variational_mean", Transform.Identity) ∉
        (mkVariationalGaussian (⟨fun _ _ _ => 0, fun _ _ => 0⟩ : Prior ℚ ℚ Unit Unit)
          ((fun _ => 0) : Fin 1 → ℚ) (some fun _ => 0) (some 1) false 1).2 ∧
      ("variational_root_covariance", Transform.FillTriangular) ∉
        (mkVariationalGaussian (⟨fun _ _ _ => 0, fun _ _ => 0⟩ : Prior ℚ ℚ Unit Unit)
          ((fun _ => 0) : Fin 1 → ℚ) (some fun _ => 0) (some 1) false 1).2 := by
  refine ⟨rfl, ?_, ?_⟩ <;> simp [mkVariationalGaussian]

/-- Claim C6 (amended): no structural check relates the `diag` flag to the
supplied root covariance: whenever the factorisation succeeds, `prior_kl` and
`predict` of both families return ordinary results computed with the root
exactly as supplied, and their outputs do not depend on the `diag` flag at
all. -/
theorem claim6_no_root_structure_check
    (self : VariationalGaussian ℝ In KPar MPar m) (dg : Bool)
    (chol : Matrix (Fin m) (Fin m) ℝ → Option (Matrix (Fin m) (Fin m) ℝ))
    (params : VFParams ℝ In KPar MPar m) (Lz : Matrix (Fin m) (Fin m) ℝ)
    (hchol : chol (gram self.prior.kernel params.inducing_inputs params.kernel +
      self.jitter • 1) = some Lz) :
    (self.prior_kl chol params).isSome = true ∧
      (self.predict chol params).isSome = true ∧
      (WhitenedVariationalGaussian.predict self chol params).isSome = true ∧
      self.prior_kl chol params =
        VariationalGaussian.prior_kl
          ⟨self.prior, self.inducing_inputs, self.variational_mean,
            self.variational_root_covariance, dg, self.jitter⟩ chol params ∧
      self.predict chol params =
        VariationalGaussian.predict
          ⟨self.prior, self.inducing_inputs, self.variational_mean,
            self.variational_root_covariance, dg, self.jitter⟩ chol params ∧
      WhitenedVariationalGaussian.prior_kl self params =
        WhitenedVariationalGaussian.prior_kl
          ⟨self.prior, self.inducing_inputs, self.variational_mean,
            self.variational_root_covariance, dg, self.jitter⟩ params := by
  refine ⟨?_, ?_, ?_, rfl, rfl, rfl⟩ <;>
    simp only [VariationalGaussian.prior_kl, VariationalGaussian.predict,
      WhitenedVariationalGaussian.predict, hchol, Option.isSome_some]

/-- Claim C6 counterexample: a family constructed with `diag = true` that is
handed a dense (non-diagonal) lower-triangular root silently computes:
`prior_kl` and both `predict`s return ordinary results, no error is
surfaced. -/
theorem claim6_counterexample :
    ((⟨⟨fun _ _ _ => 0, fun _ _ => 0⟩, fun _ => 0, fun _ => 0, 1, true, 1⟩ :
        VariationalGaussian ℝ ℝ Unit Unit 2).diag = true) ∧
      (⟨(), (), fun _ => 0, fun _ => 0, !![1, 0; 1, 1]⟩ :
          VFParams ℝ ℝ Unit Unit 2).variational_root_covariance 1 0 ≠ 0 ∧
      (VariationalGaussian.prior_kl
          (⟨⟨fun _ _ _ => 0, fun _ _ => 0⟩, fun _ => 0, fun _ => 0, 1, true, 1⟩ :
            VariationalGaussian ℝ ℝ Unit Unit 2) (fun _ => some 1)
          ⟨(), (), fun _ => 0, fun _ => 0, !![1, 0; 1, 1]⟩).isSome = true ∧
      (VariationalGaussian.predict
          (⟨⟨fun _ _ _ => 0, fun _ _ => 0⟩, fun _ => 0, fun _ => 0, 1, true, 1⟩ :
            VariationalGaussian ℝ ℝ Unit Unit 2) (fun _ => some 1)
          ⟨(), (), fun _ => 0, fun _ => 0, !![1, 0; 1, 1]⟩).isSome = true ∧
      (WhitenedVariationalGaussian.predict
          (⟨⟨fun _ _ _ => 0, fun _ _ => 0⟩, fun _ => 0, fun _ => 0, 1, true, 1⟩ :
            WhitenedVariationalGaussian ℝ ℝ Unit Unit 2) (fun _ => some 1)
          ⟨(), (), fun _ => 0, fun _ => 0, !![1, 0; 1, 1]⟩).isSome = true := by
  refine ⟨rfl, ?_, rfl, rfl, rfl⟩
  norm_num [Matrix.cons_val_one, Matrix.cons_val_zero, Matrix.head_cons]

/-! ## KL-divergence facts -/

/-- The trace of a real Hermitian matrix is the sum of its eigenvalues. -/
theorem trace_eq_sum_eigenvalues {P : Matrix (Fin m) (Fin m) ℝ}
    (hP : P.IsHermitian) : P.trace = ∑ i, hP.eigenvalues i := by
  have hU : (star (hP.eigenvectorUnitary : Matrix (Fin m) (Fin m) ℝ)) *
      (hP.eigenvectorUnitary : Matrix (Fin m) (Fin m) ℝ) = 1 :=
    Matrix.mem_unitaryGroup_iff'.mp hP.eigenvectorUnitary.2
  conv_lhs => rw [hP.spectral_theorem]
  rw [Matrix.trace_mul_cycle, hU, one_mul, Matrix.trace_diagonal]
  simp [Function.comp, RCLike.ofReal_real_eq_id]

/-- The squared Frobenius norm is the trace of `MᴴM`. -/
theorem frobSq_eq_trace (M : Matrix (Fin n) (Fin p) ℝ) :
    frobSq M = (Mᴴ * M).trace := by
  simp only [frobSq, Matrix.trace, Matrix.diag_apply, Matrix.mul_apply,
    Matrix.conjTranspose_apply, star_trivial, pow_two]
  exact Finset.sum_comm

/-- For a real PSD matrix with nonzero determinant,
`m + log(det P) ≤ trace P`. -/
theorem add_log_det_le_trace {P : Matrix (Fin m) (Fin m) ℝ}
    (hP : P.PosSemidef) (hdet : P.det ≠ 0) :
    (m : ℝ) + Real.log P.det ≤ P.trace := by
  have hHerm : P.IsHermitian := hP.1
  have hnn : ∀ i, 0 ≤ hHerm.eigenvalues i := fun i => hP.eigenvalues_nonneg i
  have hdet2 : P.det = ∏ i, hHerm.eigenvalues i := by
    have h := hHerm.det_eq_prod_eigenvalues
    simpa [RCLike.ofReal_real_eq_id] using h
  have hne : ∀ i, hHerm.eigenvalues i ≠ 0 := by
    intro i hzero
    exact hdet (by rw [hdet2]; exact Finset.prod_eq_zero (Finset.mem_univ i) hzero)
  have hpos : ∀ i, 0 < hHerm.eigenvalues i := fun i =>
    lt_of_le_of_ne (hnn i) (Ne.symm (hne i))
  have htr : P.trace = ∑ i, hHerm.eigenvalues i := trace_eq_sum_eigenvalues hHerm
  have hlog : Real.log P.det = ∑ i, Real.log (hHerm.eigenvalues i) := by
    rw [hdet2, Real.log_prod _ _ (fun i _ => hne i)]
  rw [htr, hlog]
  have h1 : ∀ i : Fin m, 1 + Real.log (hHerm.eigenvalues i) ≤ hHerm.eigenvalues i := by
    intro i
    have h2 := Real.log_le_sub_one_of_pos (hpos i)
    linarith
  calc (m : ℝ) + ∑ i, Real.log (hHerm.eigenvalues i)
      = ∑ i : Fin m, (1 + Real.log (hHerm.eigenvalues i)) := by
        rw [Finset.sum_add_distrib]
        simp [Finset.card_univ]
    _ ≤ ∑ i, hHerm.eigenvalues i := Finset.sum_le_sum fun i _ => h1 i

/-- `m + 2·log(det M) ≤ ‖M‖_F²` for a real square matrix with positive
determinant. -/
theorem frobSq_lower_bound {M : Matrix (Fin m) (Fin m) ℝ} (hdet : 0 < M.det) :
    (m : ℝ) + 2 * Real.log M.det ≤ frobSq M := by
  have hPSD : (Mᴴ * M).PosSemidef := Matrix.posSemidef_conjTranspose_mul_self M
  have hMT : Mᴴ = Mᵀ := Matrix.conjTranspose_eq_transpose_of_trivial M
  have hdet2 : (Mᴴ * M).det = M.det ^ 2 := by
    rw [Matrix.det_mul, hMT, Matrix.det_transpose]
    ring
  have hne : (Mᴴ * M).det ≠ 0 := by
    rw [hdet2]
    exact pow_ne_zero 2 hdet.ne'
  have h := add_log_det_le_trace hPSD hne
  rw [hdet2, Real.log_pow] at h
  rw [frobSq_eq_trace]
  push_cast at h ⊢
  linarith

/-- The modelled triangular-root Gaussian KL divergence is nonnegative for
valid (lower-triangular, positive-diagonal) scale factors. -/
theorem klMvNormalTri_nonneg {μ1 μ2 : Fin m → ℝ} {L1 L2 : Matrix (Fin m) (Fin m) ℝ}
    (h1tri : ∀ i j : Fin m, i < j → L1 i j = 0) (h1pos : ∀ i : Fin m, 0 < L1 i i)
    (h2tri : ∀ i j : Fin m, i < j → L2 i j = 0) (h2pos : ∀ i : Fin m, 0 < L2 i i) :
    0 ≤ klMvNormalTri μ1 L1 μ2 L2 := by
  have h2d : ∀ i : Fin m, L2 i i ≠ 0 := fun i => (h2pos i).ne'
  have hLM : L2 * solveLower L2 L1 = L1 := mul_solveLower L2 L1 h2tri h2d
  have hdet1 : L1.det = ∏ i, L1 i i :=
    Matrix.det_of_lowerTriangular L1 (fun i j hij => h1tri i j hij)
  have hdet2 : L2.det = ∏ i, L2 i i :=
    Matrix.det_of_lowerTriangular L2 (fun i j hij => h2tri i j hij)
  have hp1 : 0 < L1.det := by
    rw [hdet1]; exact Finset.prod_pos fun i _ => h1pos i
  have hp2 : 0 < L2.det := by
    rw [hdet2]; exact Finset.prod_pos fun i _ => h2pos i
  have hd := congrArg Matrix.det hLM
  rw [Matrix.det_mul] at hd
  have hdetM : (solveLower L2 L1).det = L1.det / L2.det := by
    field_simp
    linarith
  have hdetMpos : 0 < (solveLower L2 L1).det := by
    rw [hdetM]; exact div_pos hp1 hp2
  have hlogs : (∑ i, Real.log (L2 i i)) - ∑ i, Real.log (L1 i i) =
      - Real.log (solveLower L2 L1).det := by
    rw [hdetM, Real.log_div hp1.ne' hp2.ne', hdet1, hdet2,
      Real.log_prod _ _ (fun i _ => (h1pos i).ne'),
      Real.log_prod _ _ (fun i _ => (h2pos i).ne')]
    ring
  have hkey := frobSq_lower_bound hdetMpos
  have hv : 0 ≤ sqNorm (solveLowerVec L2 (μ1 - μ2)) := by
    unfold sqNorm
    exact Finset.sum_nonneg fun i _ => sq_nonneg _
  unfold klMvNormalTri
  rw [hlogs]
  linarith

/-- The modelled triangular-root Gaussian KL divergence vanishes when the two
distributions coincide (equal means and equal covariances `L1L1ᵀ = L2L2ᵀ`). -/
theorem klMvNormalTri_eq_zero {μ1 μ2 : Fin m → ℝ} {L1 L2 : Matrix (Fin m) (Fin m) ℝ}
    (h1tri : ∀ i j : Fin m, i < j → L1 i j = 0) (h1pos : ∀ i : Fin m, 0 < L1 i i)
    (h2tri : ∀ i j : Fin m, i < j → L2 i j = 0) (h2pos : ∀ i : Fin m, 0 < L2 i i)
    (hμ : μ1 = μ2) (hS : L1 * L1ᵀ = L2 * L2ᵀ) :
    klMvNormalTri μ1 L1 μ2 L2 = 0 := by
  have h2d : ∀ i : Fin m, L2 i i ≠ 0 := fun i => (h2pos i).ne'
  have hu2 : IsUnit L2.det := isUnit_det_of_lowerTri L2 h2tri h2d
  have hu2T : IsUnit L2ᵀ.det := by rwa [Matrix.det_transpose]
  have hLM : L2 * solveLower L2 L1 = L1 := mul_solveLower L2 L1 h2tri h2d
  have hMinv : solveLower L2 L1 = L2⁻¹ * L1 := by
    have hcan : L2 * (L2⁻¹ * L1) = L1 := by
      rw [← Matrix.mul_assoc, Matrix.mul_nonsing_inv L2 hu2, one_mul]
    exact mul_left_cancel_of_isUnit_det hu2 (by rw [hLM, hcan])
  have hMMT : solveLower L2 L1 * (solveLower L2 L1)ᵀ = 1 := by
    rw [hMinv, Matrix.transpose_mul, Matrix.transpose_nonsing_inv]
    calc L2⁻¹ * L1 * (L1ᵀ * L2ᵀ⁻¹)
        = L2⁻¹ * (L1 * L1ᵀ) * L2ᵀ⁻¹ := by
          simp only [Matrix.mul_assoc]
      _ = L2⁻¹ * L2 * (L2ᵀ * L2ᵀ⁻¹) := by
          rw [hS]; simp only [Matrix.mul_assoc]
      _ = 1 := by
          rw [Matrix.nonsing_inv_mul L2 hu2, Matrix.mul_nonsing_inv L2ᵀ hu2T, one_mul]
  have hfrob : frobSq (solveLower L2 L1) = (m : ℝ) := by
    rw [frobSq_eq_trace, Matrix.conjTranspose_eq_transpose_of_trivial,
      Matrix.trace_mul_comm, hMMT, Matrix.trace_one]
    simp
  have hdet1 : L1.det = ∏ i, L1 i i :=
    Matrix.det_of_lowerTriangular L1 (fun i j hij => h1tri i j hij)
  have hdet2 : L2.det = ∏ i, L2 i i :=
    Matrix.det_of_lowerTriangular L2 (fun i j hij => h2tri i j hij)
  have hp1 : 0 < L1.det := by
    rw [hdet1]; exact Finset.prod_pos fun i _ => h1pos i
  have hp2 : 0 < L2.det := by
    rw [hdet2]; exact Finset.prod_pos fun i _ => h2pos i
  have hd := congrArg Matrix.det hLM
  rw [Matrix.det_mul] at hd
  have hdL : L1.det = L2.det := by
    have hsq := congrArg Matrix.det hMMT
    rw [Matrix.det_mul, Matrix.det_transpose, Matrix.det_one] at hsq
    have hfac : ((solveLower L2 L1).det - 1) * ((solveLower L2 L1).det + 1) = 0 := by
      nlinarith [hsq]
    rcases mul_eq_zero.mp hfac with h2 | h2
    · have h3 : (solveLower L2 L1).det = 1 := by linarith
      rw [h3, mul_one] at hd
      linarith
    · have h3 : (solveLower L2 L1).det = -1 := by linarith
      rw [h3] at hd
      nlinarith
  have hlogs : (∑ i, Real.log (L2 i i)) - ∑ i, Real.log (L1 i i) = 0 := by
    rw [← Real.log_prod _ _ (fun i _ => (h1pos i).ne'),
      ← Real.log_prod _ _ (fun i _ => (h2pos i).ne'), ← hdet1, ← hdet2, hdL,
      sub_self]
  have hv : sqNorm (solveLowerVec L2 (μ1 - μ2)) = 0 := by
    have hzero : μ1 - μ2 = 0 := by rw [hμ, sub_self]
    rw [hzero, solveLowerVec_eq_of L2 h2tri h2d (Matrix.mulVec_zero L2)]
    unfold sqNorm
    simp
  unfold klMvNormalTri
  rw [hfrob, hlogs, hv]
  ring

/-- Claim C7: the whitened `prior_kl` equals `KL[N(μ, sqrt·sqrtᵀ) ‖ N(0, I)]`
in the textbook full-covariance closed form, and it reads only the variational
mean and root covariance from the parameter dictionary: it is independent of
the family instance and of every other entry of the parameter dictionary
(kernel parameters, mean-function parameters, inducing inputs), and its
signature involves no Cholesky oracle at all. -/
theorem claim7_whitened_prior_kl
    (self : WhitenedVariationalGaussian ℝ In KPar MPar m)
    (params : VFParams ℝ In KPar MPar m)
    (htri : ∀ i j : Fin m, i < j → params.variational_root_covariance i j = 0)
    (hpos : ∀ i : Fin m, 0 < params.variational_root_covariance i i) :
    WhitenedVariationalGaussian.prior_kl self params =
        klMvNormalFull params.variational_mean
          (params.variational_root_covariance *
            params.variational_root_covarianceᵀ) (fun _ => 0) 1 ∧
      ∀ (self2 : WhitenedVariationalGaussian ℝ In KPar MPar m)
        (params2 : VFParams ℝ In KPar MPar m),
        params2.variational_mean = params.variational_mean →
        params2.variational_root_covariance = params.variational_root_covariance →
        WhitenedVariationalGaussian.prior_kl self2 params2 =
          WhitenedVariationalGaussian.prior_kl self params := by
  constructor
  · have h1tri : ∀ i j : Fin m, i < j → (1 : Matrix (Fin m) (Fin m) ℝ) i j = 0 :=
      fun i j hij => Matrix.one_apply_ne (ne_of_lt hij)
    have h1d : ∀ i : Fin m, (1 : Matrix (Fin m) (Fin m) ℝ) i i ≠ 0 := by
      intro i; rw [Matrix.one_apply_eq]; exact one_ne_zero
    have hμ0 : params.variational_mean - (fun _ => 0) = params.variational_mean := by
      funext i; simp
    have hs : solveLower (1 : Matrix (Fin m) (Fin m) ℝ)
        params.variational_root_covariance = params.variational_root_covariance :=
      solveLower_eq_of 1 h1tri h1d (one_mul _)
    have hsv : solveLowerVec (1 : Matrix (Fin m) (Fin m) ℝ)
        params.variational_mean = params.variational_mean :=
      solveLowerVec_eq_of 1 h1tri h1d (Matrix.one_mulVec _)
    have hfr : frobSq params.variational_root_covariance =
        (params.variational_root_covariance *
          params.variational_root_covarianceᵀ).trace := by
      rw [frobSq_eq_trace, Matrix.conjTranspose_eq_transpose_of_trivial,
        Matrix.trace_mul_comm]
    have hdetS : (params.variational_root_covariance *
        params.variational_root_covarianceᵀ).det =
        (∏ i, params.variational_root_covariance i i) ^ 2 := by
      rw [Matrix.det_mul, Matrix.det_transpose,
        Matrix.det_of_lowerTriangular _ (fun i j hij => htri i j hij)]
      ring
    have hlogS : Real.log ((params.variational_root_covariance *
        params.variational_root_covarianceᵀ).det) =
        2 * ∑ i, Real.log (params.variational_root_covariance i i) := by
      rw [hdetS, Real.log_pow, Real.log_prod _ _ (fun i _ => (hpos i).ne')]
      push_cast
      ring
    have hsq : sqNorm params.variational_mean =
        params.variational_mean ⬝ᵥ params.variational_mean := by
      unfold sqNorm
      simp [Matrix.dotProduct, pow_two]
    have hzs : ((fun _ => 0) : Fin m → ℝ) - params.variational_mean =
        -params.variational_mean := by
      funext i; simp
    have h1inv : (1 : Matrix (Fin m) (Fin m) ℝ)⁻¹ = 1 :=
      Matrix.inv_eq_left_inv (by rw [one_mul])
    show klMvNormalTri params.variational_mean
        params.variational_root_covariance (fun _ => 0) 1 = _
    unfold klMvNormalTri klMvNormalFull
    rw [hμ0, hs, hsv, h1inv, one_mul, Matrix.det_one, hzs,
      Matrix.one_mulVec, Matrix.dotProduct_neg, Matrix.neg_dotProduct, neg_neg,
      one_div, Real.log_inv, hlogS, hfr, hsq]
    have hlog1 : (∑ i : Fin m, Real.log ((1 : Matrix (Fin m) (Fin m) ℝ) i i)) = 0 := by
      simp [Matrix.one_apply_eq]
    rw [hlog1]
    ring
  · intro self2 params2 h1 h2
    show klMvNormalTri params2.variational_mean
        params2.variational_root_covariance (fun _ => 0) 1 =
      klMvNormalTri params.variational_mean
        params.variational_root_covariance (fun _ => 0) 1
    rw [h1, h2]

/-- Claim C8: for valid parameters (lower-triangular roots with positive
diagonals, factorisable jittered `Kzz`), `prior_kl` of either family is
nonnegative, and equals exactly 0 when the variational distribution equals
the prior: `μ = μz` and `sqrt·sqrtᵀ = Kzz + jitter·I` for the unwhitened
family, `μ = 0` and `sqrt·sqrtᵀ = I` for the whitened family. -/
theorem claim8_prior_kl_nonneg_zero_at_prior
    (self : VariationalGaussian ℝ In KPar MPar m)
    (selfW : WhitenedVariationalGaussian ℝ In KPar MPar m)
    (chol : Matrix (Fin m) (Fin m) ℝ → Option (Matrix (Fin m) (Fin m) ℝ))
    (params paramsW : VFParams ℝ In KPar MPar m) (Lz : Matrix (Fin m) (Fin m) ℝ)
    (htri : ∀ i j : Fin m, i < j → params.variational_root_covariance i j = 0)
    (hpos : ∀ i : Fin m, 0 < params.variational_root_covariance i i)
    (hWtri : ∀ i j : Fin m, i < j → paramsW.variational_root_covariance i j = 0)
    (hWpos : ∀ i : Fin m, 0 < paramsW.variational_root_covariance i i)
    (hchol : chol (gram self.prior.kernel params.inducing_inputs params.kernel +
      self.jitter • 1) = some Lz)
    (hLz : IsCholeskyFactor Lz
      (gram self.prior.kernel params.inducing_inputs params.kernel +
        self.jitter • 1)) :
    (self.prior_kl chol params).isSome = true ∧
      (∀ r : ℝ, self.prior_kl chol params = some r →
        0 ≤ r ∧
          (params.variational_mean =
              mean_vector self.prior.mean_function params.inducing_inputs
                params.mean_function →
            params.variational_root_covariance *
                params.variational_root_covarianceᵀ =
              gram self.prior.kernel params.inducing_inputs params.kernel +
                self.jitter • 1 →
            r = 0)) ∧
      0 ≤ WhitenedVariationalGaussian.prior_kl selfW paramsW ∧
      (paramsW.variational_mean = (fun _ => 0) →
        paramsW.variational_root_covariance *
            paramsW.variational_root_covarianceᵀ = 1 →
        WhitenedVariationalGaussian.prior_kl selfW paramsW = 0) := by
  obtain ⟨hLtri, hLpos, hLfact⟩ := hLz
  have h1tri : ∀ i j : Fin m, i < j → (1 : Matrix (Fin m) (Fin m) ℝ) i j = 0 :=
    fun i j hij => Matrix.one_apply_ne (ne_of_lt hij)
  have h1pos : ∀ i : Fin m, 0 < (1 : Matrix (Fin m) (Fin m) ℝ) i i := by
    intro i; rw [Matrix.one_apply_eq]; exact one_pos
  refine ⟨?_, ?_, ?_, ?_⟩
  · simp only [VariationalGaussian.prior_kl, hchol, Option.isSome_some]
  · intro r hr
    simp only [VariationalGaussian.prior_kl, hchol, Option.some.injEq] at hr
    subst hr
    refine ⟨klMvNormalTri_nonneg htri hpos hLtri hLpos, ?_⟩
    intro hμ hS
    exact klMvNormalTri_eq_zero htri hpos hLtri hLpos hμ
      (by rw [hS]; exact hLfact.symm)
  · show (0 : ℝ) ≤ klMvNormalTri paramsW.variational_mean
      paramsW.variational_root_covariance (fun _ => 0) 1
    exact klMvNormalTri_nonneg hWtri hWpos h1tri h1pos
  · intro hμ hS
    show klMvNormalTri paramsW.variational_mean
      paramsW.variational_root_covariance (fun _ => 0) 1 = 0
    exact klMvNormalTri_eq_zero hWtri hWpos h1tri h1pos hμ
      (by rw [hS, Matrix.transpose_one, one_mul])

/-! ## Witness support -/

/-- The identity matrix is lower triangular. -/
theorem one_tri {k : ℕ} :
    ∀ i j : Fin k, i < j → (1 : Matrix (Fin k) (Fin k) R) i j = 0 :=
  fun _ _ hij => Matrix.one_apply_ne (ne_of_lt hij)

/-- The identity matrix has positive diagonal. -/
theorem one_diag_pos {k : ℕ} :
    ∀ i : Fin k, (0 : R) < (1 : Matrix (Fin k) (Fin k) R) i i := by
  intro i
  rw [Matrix.one_apply_eq]
  exact one_pos

/-- On the concrete real configuration the jittered `Kzz` is the identity. -/
theorem testGramR_eq :
    gram testFamR.prior.kernel testParamsR.inducing_inputs testParamsR.kernel +
      testFamR.jitter • 1 = (1 : Matrix (Fin 1) (Fin 1) ℝ) := by
  ext i j
  have hij : i = j := Subsingleton.elim i j
  subst hij
  simp [gram, testFamR, testPriorR, testParamsR, Matrix.add_apply,
    Matrix.smul_apply, Matrix.one_apply_eq, Matrix.of_apply]

/-- The identity is the Cholesky factor of the concrete jittered `Kzz`. -/
theorem testCholFactorR : IsCholeskyFactor (1 : Matrix (Fin 1) (Fin 1) ℝ)
    (gram testFamR.prior.kernel testParamsR.inducing_inputs testParamsR.kernel +
      testFamR.jitter • 1) :=
  ⟨one_tri, one_diag_pos, by rw [Matrix.transpose_one, one_mul, testGramR_eq]⟩

/-- On the concrete rational configuration the jittered `Kzz` is the
identity. -/
theorem testGramQ_eq :
    gram testFamQ.prior.kernel testParamsQ.inducing_inputs testParamsQ.kernel +
      testFamQ.jitter • 1 = (1 : Matrix (Fin 1) (Fin 1) ℚ) := by
  ext i j
  have hij : i = j := Subsingleton.elim i j
  subst hij
  simp [gram, testFamQ, testPriorQ, testParamsQ, Matrix.add_apply,
    Matrix.smul_apply, Matrix.one_apply_eq, Matrix.of_apply]

/-- The identity is the Cholesky factor of the concrete rational jittered
`Kzz`. -/
theorem testCholFactorQ : IsCholeskyFactor (1 : Matrix (Fin 1) (Fin 1) ℚ)
    (gram testFamQ.prior.kernel testParamsQ.inducing_inputs testParamsQ.kernel +
      testFamQ.jitter • 1) :=
  ⟨one_tri, one_diag_pos, by rw [Matrix.transpose_one, one_mul, testGramQ_eq]⟩

/-- On the concrete rational configuration the cross covariance to the zero
test point vanishes. -/
theorem testCrossQ_eq :
    cross_covariance testFamQ.prior.kernel testParamsQ.inducing_inputs
      ((fun _ => 0) : Fin 1 → ℚ) testParamsQ.kernel = 0 := by
  ext i j
  simp [cross_covariance, testFamQ, testPriorQ, testParamsQ, Matrix.of_apply]

/-- On the concrete rational configuration the test-test gram matrix
vanishes. -/
theorem testGramTQ_eq :
    gram testFamQ.prior.kernel ((fun _ => 0) : Fin 1 → ℚ)
      testParamsQ.kernel = 0 := by
  ext i j
  simp [gram, testFamQ, testPriorQ, testParamsQ, Matrix.of_apply]

/-! ## Witnesses -/

/-- Witness for claim C1 at a concrete one-point configuration. -/
theorem claim1_witness :
    Option.map (fun f => f 1 (fun _ => 0))
        (WhitenedVariationalGaussian.predict testFamQ testCholQ testParamsQ) =
      Option.map (fun f => f 1 (fun _ => 0))
        (VariationalGaussian.predict testFamQ testCholQ testParamsQ) :=
  claim1_whitening_equivalence testFamQ testFamQ testCholQ testParamsQ testParamsQ
    1 rfl rfl rfl rfl rfl rfl testCholFactorQ
    (by funext i; simp [Matrix.one_mulVec, testParamsQ, testFamQ, testPriorQ,
      mean_vector])
    (one_mul _) 1 (fun _ => 0)

/-- Witness for claim C2 at a concrete one-point configuration. -/
theorem claim2_witness :
    Option.map (fun f => f 1 (fun _ => 0))
        (VariationalGaussian.predict testFamQ testCholQ testParamsQ) =
      some ⟨mean_vector testFamQ.prior.mean_function (fun _ => 0)
              testParamsQ.mean_function +
            (0 : Matrix (Fin 1) (Fin 1) ℚ)ᵀ *ᵥ (testParamsQ.variational_mean -
              mean_vector testFamQ.prior.mean_function testParamsQ.inducing_inputs
                testParamsQ.mean_function),
            gram testFamQ.prior.kernel (fun _ => 0) testParamsQ.kernel -
              (0 : Matrix (Fin 1) (Fin 1) ℚ)ᵀ * 0 +
              ((0 : Matrix (Fin 1) (Fin 1) ℚ)ᵀ *
                  testParamsQ.variational_root_covariance) *
                ((0 : Matrix (Fin 1) (Fin 1) ℚ)ᵀ *
                  testParamsQ.variational_root_covariance)ᵀ +
              testFamQ.jitter • 1⟩ :=
  claim2_unwhitened_predict_formula testFamQ testCholQ testParamsQ 1 rfl
    testCholFactorQ 1 (fun _ => 0) 0 0
    (by rw [Matrix.mul_zero]; exact testCrossQ_eq.symm)
    (by rw [Matrix.mul_zero])

/-- Witness for claim C3 at a concrete one-point configuration. -/
theorem claim3_witness :
    Option.map (fun f => f 1 (fun _ => 0))
        (WhitenedVariationalGaussian.predict testFamQ testCholQ testParamsQ) =
      some ⟨mean_vector testFamQ.prior.mean_function (fun _ => 0)
              testParamsQ.mean_function +
            (0 : Matrix (Fin 1) (Fin 1) ℚ)ᵀ *ᵥ testParamsQ.variational_mean,
            gram testFamQ.prior.kernel (fun _ => 0) testParamsQ.kernel -
              (0 : Matrix (Fin 1) (Fin 1) ℚ)ᵀ * 0 +
              ((0 : Matrix (Fin 1) (Fin 1) ℚ)ᵀ *
                  testParamsQ.variational_root_covariance) *
                ((0 : Matrix (Fin 1) (Fin 1) ℚ)ᵀ *
                  testParamsQ.variational_root_covariance)ᵀ +
              testFamQ.jitter • 1⟩ :=
  claim3_whitened_predict_formula testFamQ testCholQ testParamsQ 1 rfl
    testCholFactorQ 1 (fun _ => 0) 0
    (by rw [Matrix.mul_zero]; exact testCrossQ_eq.symm)

/-- Witness for claim C5 with a failing Cholesky oracle. -/
theorem claim5_witness :
    VariationalGaussian.prior_kl testFamR testCholFail testParamsR = none ∧
      VariationalGaussian.predict testFamR testCholFail testParamsR = none ∧
      WhitenedVariationalGaussian.predict testFamR testCholFail testParamsR =
        none :=
  claim5_cholesky_failure_propagates testFamR testCholFail testParamsR rfl

/-- Witness for (amended) claim C6 at a concrete configuration. -/
theorem claim6_witness :
    (VariationalGaussian.prior_kl testFamR testCholR testParamsR).isSome = true ∧
      (VariationalGaussian.predict testFamR testCholR testParamsR).isSome = true ∧
      (WhitenedVariationalGaussian.predict testFamR testCholR
        testParamsR).isSome = true ∧
      VariationalGaussian.prior_kl testFamR testCholR testParamsR =
        VariationalGaussian.prior_kl
          ⟨testFamR.prior, testFamR.inducing_inputs, testFamR.variational_mean,
            testFamR.variational_root_covariance, true, testFamR.jitter⟩
          testCholR testParamsR ∧
      VariationalGaussian.predict testFamR testCholR testParamsR =
        VariationalGaussian.predict
          ⟨testFamR.prior, testFamR.inducing_inputs, testFamR.variational_mean,
            testFamR.variational_root_covariance, true, testFamR.jitter⟩
          testCholR testParamsR ∧
      WhitenedVariationalGaussian.prior_kl testFamR testParamsR =
        WhitenedVariationalGaussian.prior_kl
          ⟨testFamR.prior, testFamR.inducing_inputs, testFamR.variational_mean,
            testFamR.variational_root_covariance, true, testFamR.jitter⟩
          testParamsR :=
  claim6_no_root_structure_check testFamR true testCholR testParamsR 1 rfl

/-- Witness for claim C7 at a concrete configuration. -/
theorem claim7_witness :
    WhitenedVariationalGaussian.prior_kl testFamR testParamsR =
        klMvNormalFull testParamsR.variational_mean
          (testParamsR.variational_root_covariance *
            testParamsR.variational_root_covarianceᵀ) (fun _ => 0) 1 ∧
      WhitenedVariationalGaussian.prior_kl testFamR testParamsR =
        WhitenedVariationalGaussian.prior_kl testFamR testParamsR :=
  ⟨(claim7_whitened_prior_kl testFamR testParamsR one_tri one_diag_pos).1,
    (claim7_whitened_prior_kl testFamR testParamsR one_tri one_diag_pos).2
      testFamR testParamsR rfl rfl⟩

/-- Witness for claim C8 at a concrete configuration where the variational
distribution equals the prior. -/
theorem claim8_witness :
    (VariationalGaussian.prior_kl testFamR testCholR testParamsR).isSome = true ∧
      0 ≤ (VariationalGaussian.prior_kl testFamR testCholR testParamsR).get rfl ∧
      (VariationalGaussian.prior_kl testFamR testCholR testParamsR).get rfl = 0 ∧
      0 ≤ WhitenedVariationalGaussian.prior_kl testFamR testParamsR ∧
      WhitenedVariationalGaussian.prior_kl testFamR testParamsR = 0 := by
  have h := claim8_prior_kl_nonneg_zero_at_prior testFamR testFamR testCholR
    testParamsR testParamsR 1 one_tri one_diag_pos one_tri one_diag_pos rfl
    testCholFactorR
  obtain ⟨h1, h2, h3, h4⟩ := h
  have hsome : VariationalGaussian.prior_kl testFamR testCholR testParamsR =
      some ((VariationalGaussian.prior_kl testFamR testCholR testParamsR).get h1) :=
    (Option.some_get h1).symm
  have hr := h2 _ hsome
  have hμ : testParamsR.variational_mean =
      mean_vector testFamR.prior.mean_function testParamsR.inducing_inputs
        testParamsR.mean_function := rfl
  have hS : testParamsR.variational_root_covariance *
      testParamsR.variational_root_covarianceᵀ =
      gram testFamR.prior.kernel testParamsR.inducing_inputs testParamsR.kernel +
        testFamR.jitter • 1 := by
    rw [show testParamsR.variational_root_covariance =
        (1 : Matrix (Fin 1) (Fin 1) ℝ) from rfl,
      Matrix.transpose_one, one_mul, testGramR_eq]
  have hμW : testParamsR.variational_mean = (fun _ => 0) := rfl
  have hSW : testParamsR.variational_root_covariance *
      testParamsR.variational_root_covarianceᵀ =
      (1 : Matrix (Fin 1) (Fin 1) ℝ) := by
    rw [show testParamsR.variational_root_covariance =
        (1 : Matrix (Fin 1) (Fin 1) ℝ) from rfl,
      Matrix.transpose_one, one_mul]
  exact ⟨h1, hr.1, hr.2 hμ hS, h3, h4 hμW hSW⟩

/-- Witness for claim C9 at a concrete one-point configuration. -/
theorem claim9_witness :
    ((((VariationalGaussian.predict testFamQ testCholQ testParamsQ).get rfl) 1
        (fun _ => 0)).covariance)ᵀ =
      (((VariationalGaussian.predict testFamQ testCholQ testParamsQ).get rfl) 1
        (fun _ => 0)).covariance ∧
      0 ≤ (((VariationalGaussian.predict testFamQ testCholQ testParamsQ).get rfl)
        1 (fun _ => 0)).covariance 0 0 := by
  have hPSD : jointPSD
      (gram testFamQ.prior.kernel testParamsQ.inducing_inputs testParamsQ.kernel +
        testFamQ.jitter • 1)
      (cross_covariance testFamQ.prior.kernel testParamsQ.inducing_inputs
        ((fun _ => 0) : Fin 1 → ℚ) testParamsQ.kernel)
      (gram testFamQ.prior.kernel ((fun _ => 0) : Fin 1 → ℚ) testParamsQ.kernel) := by
    intro x y
    rw [testGramQ_eq, testCrossQ_eq, testGramTQ_eq]
    simp only [Matrix.one_mulVec, Matrix.zero_mulVec, Matrix.transpose_zero,
      Matrix.dotProduct_zero, add_zero]
    exact Finset.sum_nonneg fun i _ => mul_self_nonneg (x i)
  have hsome : (VariationalGaussian.predict testFamQ testCholQ
      testParamsQ).isSome = true := rfl
  have h := claim9_predict_covariance_symmetric_nonneg_diag testFamQ testCholQ
    testParamsQ 1 rfl testCholFactorQ (by norm_num [testFamQ]) 1 (fun _ => 0)
    (by rw [testGramTQ_eq, Matrix.transpose_zero]) hPSD
    ((VariationalGaussian.predict testFamQ testCholQ testParamsQ).get hsome)
    (Or.inl (Option.some_get hsome).symm)
  exact ⟨h.1, h.2 0⟩

end GPJax
